import Mathlib

/-!
# Verification of the vector-addition programs

Shallow embedding of the two C programs of this repository:

* `vector_add2.c` — a sequential vector-addition benchmark;
* `mpi_vector_add3.c` — an MPI variant that block-distributes two vectors,
  computes a dot product via `MPI_Reduce(MPI_SUM)` and a scalar
  multiplication, and reassembles blocks at rank 0 via `MPI_Gather`.

Machine `double` values are modelled as exact rationals `ℚ`; array reads
`a[i]` are modelled by `List.getD i 0` (in-bounds in every valid run),
loop-carried in-place writes by `List.set` folded over the loop index.
MPI collectives are modelled by their documented semantics from the global
(SPMD) viewpoint: the list of all ranks' contributions goes in, each rank's
observed result comes out.
-/

/-! ## Embedding of `vector_add2.c` -/

/-- `Read_n` (vector_add2.c lines 106-113): after reading `n` from stdin,
if `n <= 0` it writes `"Order should be positive"` to stderr and calls
`exit(-1)`; otherwise the value is returned through `n_p` unchanged.
The error case carries the message and the exit status. -/
def Read_n (n : Int) : Except (String × Int) Int :=
  if n ≤ 0 then Except.error ("Order should be positive", -1) else Except.ok n

/-- One pass of the `Vector_sum` loop (vector_add2.c lines 187-188):
iterations `i = 0 .. k-1` of `z[i] = x[i] + y[i]`, unrolled from the last
iteration. -/
def vectorSumLoop (x y z : List ℚ) : Nat → List ℚ
  | 0 => z
  | k + 1 => (vectorSumLoop x y z k).set k (x.getD k 0 + y.getD k 0)

/-- `Vector_sum` (vector_add2.c lines 180-189): `for (i = 0; i < n; i++)
z[i] = x[i] + y[i];` writing into the output array `z`. -/
def Vector_sum (x y z : List ℚ) (n : Nat) : List ℚ :=
  vectorSumLoop x y z n

/-! ## Embedding of `mpi_vector_add3.c` -/

/-- The hard-coded vector order `n = 20` (mpi_vector_add3.c line 37). -/
def n_main : Nat := 20

/-- The hard-coded scalar `2.5` (mpi_vector_add3.c line 42). -/
def scalar_main : ℚ := 5 / 2

/-- `local_n = n / comm_sz` (mpi_vector_add3.c line 51): C integer
division, performed with no validation of `n` or of divisibility. -/
def localN (n comm_sz : Nat) : Nat := n / comm_sz

/-- The whole pre-collective configuration phase of `main`
(mpi_vector_add3.c lines 36-54): `n` is fixed at 20 and `local_n` is
computed by integer division.  `Check_for_error` is declared (line 30) but
never defined nor called, so no configuration check of any kind runs: the
phase always yields a block size and never reports an error. -/
def mpiPartitionPhase (comm_sz : Nat) : Nat := localN n_main comm_sz

/-- The local accumulation loop of `Parallel_dot_product`
(mpi_vector_add3.c lines 105-109): `local_dot_product = 0.0;` then
`for (i = 0; i < local_n; i++) local_dot_product += local_x[i]*local_y[i];`,
a left fold in ascending index order. -/
def localDot (x y : List ℚ) (local_n : Nat) : ℚ :=
  (List.range local_n).foldl (fun acc i => acc + x.getD i 0 * y.getD i 0) 0

/-- `MPI_Reduce(..., MPI_DOUBLE, MPI_SUM, 0, ...)`
(mpi_vector_add3.c line 110), modelled from the global viewpoint:
`values` lists every rank's contribution in rank order; the root (rank 0)
observes the combined sum, every other rank observes nothing. -/
def MPI_Reduce_sum (values : List ℚ) (my_rank : Nat) : Option ℚ :=
  if my_rank = 0 then some values.sum else none

/-- `Parallel_dot_product` (mpi_vector_add3.c lines 104-112), global
viewpoint: rank `r` accumulates `localDot` over its own blocks `xs[r]`,
`ys[r]`; the reduction delivers the sum at rank 0, while at every other
rank the returned `global_dot_product` keeps its initialisation `0.0`. -/
def Parallel_dot_product (xs ys : List (List ℚ)) (local_n my_rank : Nat) : ℚ :=
  let dots := List.zipWith (fun x y => localDot x y local_n) xs ys
  match MPI_Reduce_sum dots my_rank with
  | some g => g
  | none => 0

/-- The loop of `Parallel_scalar_multiplication` (mpi_vector_add3.c lines
115-118): iterations `i = 0 .. k-1` of `local_x[i] *= scalar;
local_y[i] *= scalar;`, unrolled from the last iteration. -/
def scalarMulLoop (x y : List ℚ) (scalar : ℚ) : Nat → List ℚ × List ℚ
  | 0 => (x, y)
  | k + 1 =>
      let p := scalarMulLoop x y scalar k
      (p.1.set k (p.1.getD k 0 * scalar), p.2.set k (p.2.getD k 0 * scalar))

/-- `Parallel_scalar_multiplication` (mpi_vector_add3.c lines 114-119):
one call scales both argument blocks in place. -/
def Parallel_scalar_multiplication (local_x local_y : List ℚ) (scalar : ℚ)
    (local_n : Nat) : List ℚ × List ℚ :=
  scalarMulLoop local_x local_y scalar local_n

/-- The `MPI_Gather` step of `Print_vector` (mpi_vector_add3.c line 126),
global viewpoint: the root's receive buffer is the concatenation of every
rank's block in ascending rank order; non-root ranks pass a NULL receive
buffer and obtain no assembled vector. -/
def Print_vector (blocks : List (List ℚ)) (my_rank : Nat) : Option (List ℚ) :=
  if my_rank = 0 then some blocks.flatten else none

/-- State of one MPI worker's vectors after `main`'s compute phase. -/
structure MPIWorkerState where
  local_x : List ℚ
  local_y : List ℚ
  local_z : List ℚ
  dot : ℚ
deriving DecidableEq, Repr

/-- The compute phase of `main` (mpi_vector_add3.c lines 54-78) for rank
`my_rank`, given the random blocks `xs`, `ys` generated at every rank and
the (never-written) allocation contents `zs`: the dot product is computed
(line 69), then both blocks are scaled by `scalar = 2.5` (line 72).
`local_z` is allocated (line 54) and freed (line 88) but no statement in
`main` ever stores to it. -/
def mpiWorkerRun (xs ys zs : List (List ℚ)) (local_n my_rank : Nat) :
    MPIWorkerState :=
  let d := Parallel_dot_product xs ys local_n my_rank
  let p := Parallel_scalar_multiplication (xs.getD my_rank [])
    (ys.getD my_rank []) scalar_main local_n
  { local_x := p.1, local_y := p.2, local_z := zs.getD my_rank [], dot := d }

/-! ## Block decomposition induced by `local_n = n / comm_sz` -/

/-- Global indices owned by worker `r` under block size `m`: local index
`i` corresponds to global index `r * m + i` (spec §3, LocalBlock). -/
def blockIndices (r m : Nat) : List Nat :=
  (List.range m).map (fun i => r * m + i)

/-- Concatenation of all workers' index blocks in ascending rank order. -/
def partitionIndices (W m : Nat) : List Nat :=
  ((List.range W).map (fun r => blockIndices r m)).flatten

/-- Reference dot product of two whole vectors. -/
def dotList (x y : List ℚ) : ℚ :=
  (List.zipWith (fun a b => a * b) x y).sum

/-! ## Helper lemmas -/

theorem localDot_eq_sum_range (x y : List ℚ) (m : Nat) :
    localDot x y m = ∑ i ∈ Finset.range m, x.getD i 0 * y.getD i 0 := by
  induction m with
  | zero => simp [localDot]
  | succ k ih =>
      simp only [localDot, List.range_succ, List.foldl_append, List.foldl_cons,
        List.foldl_nil] at *
      rw [ih, Finset.sum_range_succ]

theorem dotList_eq_sum_range (x y : List ℚ) (h : x.length = y.length) :
    dotList x y = ∑ i ∈ Finset.range x.length, x.getD i 0 * y.getD i 0 := by
  induction x generalizing y with
  | nil => simp [dotList]
  | cons a as ih =>
      cases y with
      | nil => simp at h
      | cons b bs =>
          simp only [List.length_cons, Nat.succ_eq_add_one] at h
          have hlen : as.length = bs.length := by omega
          simp only [dotList, List.zipWith_cons_cons, List.sum_cons,
            List.length_cons]
          rw [Finset.sum_range_succ']
          simp only [List.getD_cons_succ, List.getD_cons_zero]
          rw [← dotList, ih bs hlen]
          ring

theorem localDot_eq_dotList (x y : List ℚ) (h : x.length = y.length) :
    localDot x y x.length = dotList x y := by
  rw [localDot_eq_sum_range, dotList_eq_sum_range x y h]

theorem getD_set_self {α : Type _} (l : List α) (k : Nat) (v d : α)
    (hk : k < l.length) : (l.set k v).getD k d = v := by
  rw [List.getD_eq_getElem _ _ (by simpa [List.length_set] using hk),
    List.getElem_set]
  simp

theorem getD_set_ne {α : Type _} (l : List α) (k j : Nat) (v d : α)
    (h : k ≠ j) : (l.set k v).getD j d = l.getD j d := by
  by_cases hj : j < l.length
  · rw [List.getD_eq_getElem _ _ (by simpa [List.length_set] using hj),
      List.getElem_set, if_neg h, List.getD_eq_getElem _ _ hj]
  · have h1 : l.length ≤ j := Nat.le_of_not_lt hj
    rw [List.getD_eq_default _ _ (by simpa [List.length_set] using h1),
      List.getD_eq_default _ _ h1]

theorem scalarMulLoop_fst_length (x y : List ℚ) (s : ℚ) (k : Nat) :
    (scalarMulLoop x y s k).1.length = x.length := by
  induction k with
  | zero => rfl
  | succ k ih => simp [scalarMulLoop, List.length_set, ih]

theorem scalarMulLoop_snd_length (x y : List ℚ) (s : ℚ) (k : Nat) :
    (scalarMulLoop x y s k).2.length = y.length := by
  induction k with
  | zero => rfl
  | succ k ih => simp [scalarMulLoop, List.length_set, ih]

theorem scalarMulLoop_fst_getD (x y : List ℚ) (s : ℚ) (k j : Nat) :
    (scalarMulLoop x y s k).1.getD j 0 =
      if j < k then x.getD j 0 * s else x.getD j 0 := by
  induction k with
  | zero => simp [scalarMulLoop]
  | succ k ih =>
      have hlen : (scalarMulLoop x y s k).1.length = x.length :=
        scalarMulLoop_fst_length x y s k
      rcases Nat.lt_trichotomy j k with h | h | h
      · rw [scalarMulLoop, getD_set_ne _ _ _ _ _ (Nat.ne_of_gt h), ih,
          if_pos h, if_pos (Nat.lt_succ_of_lt h)]
      · subst h
        by_cases hk : j < x.length
        · rw [scalarMulLoop, getD_set_self _ _ _ _ (hlen ▸ hk), ih,
            if_neg (Nat.lt_irrefl j), if_pos (Nat.lt_succ_self j)]
        · rw [scalarMulLoop,
            List.getD_eq_default _ _ (by
              simpa [List.length_set, hlen] using Nat.le_of_not_lt hk),
            List.getD_eq_default x 0 (Nat.le_of_not_lt hk),
            if_pos (Nat.lt_succ_self j), zero_mul]
      · have h1 : ¬ j < k := Nat.not_lt_of_gt h
        have h2 : ¬ j < k + 1 := by omega
        rw [scalarMulLoop, getD_set_ne _ _ _ _ _ (Nat.ne_of_lt h), ih,
          if_neg h1, if_neg h2]

theorem scalarMulLoop_snd_getD (x y : List ℚ) (s : ℚ) (k j : Nat) :
    (scalarMulLoop x y s k).2.getD j 0 =
      if j < k then y.getD j 0 * s else y.getD j 0 := by
  induction k with
  | zero => simp [scalarMulLoop]
  | succ k ih =>
      have hlen : (scalarMulLoop x y s k).2.length = y.length :=
        scalarMulLoop_snd_length x y s k
      rcases Nat.lt_trichotomy j k with h | h | h
      · rw [scalarMulLoop, getD_set_ne _ _ _ _ _ (Nat.ne_of_gt h), ih,
          if_pos h, if_pos (Nat.lt_succ_of_lt h)]
      · subst h
        by_cases hk : j < y.length
        · rw [scalarMulLoop, getD_set_self _ _ _ _ (hlen ▸ hk), ih,
            if_neg (Nat.lt_irrefl j), if_pos (Nat.lt_succ_self j)]
        · rw [scalarMulLoop,
            List.getD_eq_default _ _ (by
              simpa [List.length_set, hlen] using Nat.le_of_not_lt hk),
            List.getD_eq_default y 0 (Nat.le_of_not_lt hk),
            if_pos (Nat.lt_succ_self j), zero_mul]
      · have h1 : ¬ j < k := Nat.not_lt_of_gt h
        have h2 : ¬ j < k + 1 := by omega
        rw [scalarMulLoop, getD_set_ne _ _ _ _ _ (Nat.ne_of_lt h), ih,
          if_neg h1, if_neg h2]

theorem scalarMulLoop_fst_map (x y : List ℚ) (s : ℚ) (k : Nat)
    (hk : k = x.length) :
    (scalarMulLoop x y s k).1 = x.map (fun a => a * s) := by
  apply List.ext_getElem (by simp [scalarMulLoop_fst_length])
  intro n h1 h2
  have hn : n < x.length := by
    simpa [scalarMulLoop_fst_length] using h1
  have h := scalarMulLoop_fst_getD x y s k n
  rw [if_pos (hk ▸ hn)] at h
  rw [← List.getD_eq_getElem _ (0 : ℚ) h1, h, List.getD_eq_getElem _ _ hn,
    List.getElem_map]

theorem scalarMulLoop_snd_map (x y : List ℚ) (s : ℚ) (k : Nat)
    (hk : k = y.length) :
    (scalarMulLoop x y s k).2 = y.map (fun a => a * s) := by
  apply List.ext_getElem (by simp [scalarMulLoop_snd_length])
  intro n h1 h2
  have hn : n < y.length := by
    simpa [scalarMulLoop_snd_length] using h1
  have h := scalarMulLoop_snd_getD x y s k n
  rw [if_pos (hk ▸ hn)] at h
  rw [← List.getD_eq_getElem _ (0 : ℚ) h1, h, List.getD_eq_getElem _ _ hn,
    List.getElem_map]

theorem vectorSumLoop_length (x y z : List ℚ) (k : Nat) :
    (vectorSumLoop x y z k).length = z.length := by
  induction k with
  | zero => rfl
  | succ k ih => simp [vectorSumLoop, List.length_set, ih]

theorem vectorSumLoop_getD (x y z : List ℚ) (k : Nat) (hk : k ≤ z.length)
    (j : Nat) :
    (vectorSumLoop x y z k).getD j 0 =
      if j < k then x.getD j 0 + y.getD j 0 else z.getD j 0 := by
  induction k with
  | zero => simp [vectorSumLoop]
  | succ k ih =>
      have hk' : k ≤ z.length := Nat.le_of_succ_le hk
      have hlen : (vectorSumLoop x y z k).length = z.length :=
        vectorSumLoop_length x y z k
      rcases Nat.lt_trichotomy j k with h | h | h
      · rw [vectorSumLoop, getD_set_ne _ _ _ _ _ (Nat.ne_of_gt h), ih hk',
          if_pos h, if_pos (Nat.lt_succ_of_lt h)]
      · subst h
        have hj : j < z.length := Nat.lt_of_succ_le hk
        rw [vectorSumLoop, getD_set_self _ _ _ _ (hlen ▸ hj),
          if_pos (Nat.lt_succ_self j)]
      · have h1 : ¬ j < k := Nat.not_lt_of_gt h
        have h2 : ¬ j < k + 1 := by omega
        rw [vectorSumLoop, getD_set_ne _ _ _ _ _ (Nat.ne_of_lt h), ih hk',
          if_neg h1, if_neg h2]

theorem length_flatten_uniform (bs : List (List ℚ)) (m : Nat)
    (h : ∀ b ∈ bs, b.length = m) : bs.flatten.length = bs.length * m := by
  induction bs with
  | nil => simp
  | cons b bs ih =>
      have hb : b.length = m := h b (List.mem_cons_self b bs)
      have hrest : ∀ b' ∈ bs, b'.length = m :=
        fun b' hb' => h b' (List.mem_cons_of_mem b hb')
      simp only [List.flatten_cons, List.length_append, List.length_cons,
        ih hrest, hb]
      ring

theorem flatten_getD_blocks (m : Nat) :
    ∀ (bs : List (List ℚ)) (r i : Nat), (∀ b ∈ bs, b.length = m) →
      r < bs.length → i < m →
      bs.flatten.getD (r * m + i) 0 = (bs.getD r []).getD i 0
  | [], r, _, _, hr, _ => by simp at hr
  | b :: bs, 0, i, h, _, hi => by
      have hb : b.length = m := h b (List.mem_cons_self b bs)
      simp only [List.flatten_cons, Nat.zero_mul, Nat.zero_add,
        List.getD_cons_zero]
      exact List.getD_append b bs.flatten 0 i (hb ▸ hi)
  | b :: bs, r + 1, i, h, hr, hi => by
      have hb : b.length = m := h b (List.mem_cons_self b bs)
      have hrest : ∀ b' ∈ bs, b'.length = m :=
        fun b' hb' => h b' (List.mem_cons_of_mem b hb')
      have hr' : r < bs.length := by simpa using hr
      have hsplit : (r + 1) * m + i = b.length + (r * m + i) := by
        rw [hb]; ring
      simp only [List.flatten_cons, List.getD_cons_succ]
      rw [hsplit, List.getD_append_right b bs.flatten 0 _
        (Nat.le_add_right _ _), Nat.add_sub_cancel_left]
      exact flatten_getD_blocks m bs r i hrest hr' hi

theorem partitionIndices_eq_range (W m : Nat) :
    partitionIndices W m = List.range (W * m) := by
  induction W with
  | zero => simp [partitionIndices]
  | succ W ih =>
      have hsplit : (W + 1) * m = W * m + m := by ring
      rw [partitionIndices, List.range_succ, List.map_append,
        List.flatten_append, ← partitionIndices, ih, hsplit, List.range_add]
      simp [blockIndices]

theorem dotList_append (a b c d : List ℚ) (h : a.length = c.length) :
    dotList (a ++ b) (c ++ d) = dotList a c + dotList b d := by
  rw [dotList, dotList, dotList, List.zipWith_append _ _ _ _ _ h,
    List.sum_append]

theorem rankDots_sum (m : Nat) (xs ys : List (List ℚ))
    (h : List.Forall₂ (fun x y => x.length = m ∧ y.length = m) xs ys) :
    (List.zipWith (fun x y => localDot x y m) xs ys).sum =
      dotList xs.flatten ys.flatten := by
  induction h with
  | nil => simp [dotList]
  | @cons x y xs ys hxy hrest ih =>
      obtain ⟨hx, hy⟩ := hxy
      simp only [List.zipWith_cons_cons, List.sum_cons, List.flatten_cons]
      rw [dotList_append _ _ _ _ (hx.trans hy.symm), ih]
      have hd : localDot x y x.length = dotList x y :=
        localDot_eq_dotList x y (hx.trans hy.symm)
      rw [hx] at hd
      rw [hd]

/-! ## Definition used by the frame claims -/

/-- The call site of `Parallel_scalar_multiplication` inside `main`
(mpi_vector_add3.c line 72): the routine receives the pointers `local_x`
and `local_y`; the rest of the worker's state is not passed to it. -/
def scalarMulCall (st : MPIWorkerState) (s : ℚ) (local_n : Nat) :
    MPIWorkerState :=
  let p := Parallel_scalar_multiplication st.local_x st.local_y s local_n
  { st with local_x := p.1, local_y := p.2 }

/-! ## Claims -/

/-- C1: the claim says a vector order that is not positive or not divisible
by the worker count is rejected with an error before any computation and
the partition only proceeds under `n > 0 ∧ n % W = 0`.  The code performs
no such check: with `comm_sz = 3` workers the hard-coded `n = 20` is not
divisible, yet the configuration phase silently yields `local_n = 6` and
`main` proceeds into allocation, generation and the collectives.  The
file's own header comment (lines 17-21) claims the program detects
"incorrect values of the vector order (negative or not evenly divisible by
comm_sz)", and `Check_for_error` is declared (line 30) but never defined
or called, so the code contradicts its own documentation. -/
theorem C1_no_configuration_check :
    mpiPartitionPhase 3 = 6 ∧ n_main % 3 ≠ 0 := by decide

/-- C2 counterexample: in the MPI variant no elementwise addition ever
happens.  With 2 workers (`local_n = 20 / 2 = 10`), random blocks
`x = 1,…`, `y = 3,…` at rank 0 and an allocated-but-uninitialised
`local_z` modelled as zeros, the worker's `local_z` after the whole
compute phase is still all zeros, not `x + y`. -/
theorem C2_counterexample_no_mpi_vector_sum :
    (mpiWorkerRun
        [[1, 1, 1, 1, 1, 1, 1, 1, 1, 1], [2, 2, 2, 2, 2, 2, 2, 2, 2, 2]]
        [[3, 3, 3, 3, 3, 3, 3, 3, 3, 3], [4, 4, 4, 4, 4, 4, 4, 4, 4, 4]]
        [[0, 0, 0, 0, 0, 0, 0, 0, 0, 0], [0, 0, 0, 0, 0, 0, 0, 0, 0, 0]]
        (mpiPartitionPhase 2) 0).local_z =
      [0, 0, 0, 0, 0, 0, 0, 0, 0, 0] ∧
    ([0, 0, 0, 0, 0, 0, 0, 0, 0, 0] : List ℚ) ≠
      List.zipWith (fun a b => a + b) [1, 1, 1, 1, 1, 1, 1, 1, 1, 1]
        [3, 3, 3, 3, 3, 3, 3, 3, 3, 3] := by
  constructor
  · rfl
  · norm_num

/-- C2 (amended): the sequential program computes the elementwise sum
`z[i] = x[i] + y[i]` for every `i < n`; the MPI variant performs only the
dot product and the scalar multiplication over its workers' blocks and
performs no elementwise addition — its `local_z` block is never written by
the compute phase. -/
theorem C2_amended_vector_sum :
    ∀ (x y z : List ℚ) (n : Nat), n = x.length → n = y.length →
      n = z.length →
      ((∀ i, i < n →
          (Vector_sum x y z n).getD i 0 = x.getD i 0 + y.getD i 0) ∧
        (Vector_sum x y z n).length = n ∧
        ∀ (xs ys zs : List (List ℚ)) (local_n r : Nat),
          (mpiWorkerRun xs ys zs local_n r).local_z = zs.getD r []) := by
  intro x y z n hx hy hz
  refine ⟨fun i hi => ?_, ?_, fun xs ys zs local_n r => rfl⟩
  · rw [Vector_sum, vectorSumLoop_getD x y z n (le_of_eq hz) i, if_pos hi]
  · rw [Vector_sum, vectorSumLoop_length, hz]

/-- C2 witness: the amended theorem applied at `x = [1,2]`, `y = [3,4]`,
`z = [0,0]`, `n = 2`. -/
theorem C2_amended_vector_sum_witness :
    (∀ i, i < 2 → (Vector_sum [1, 2] [3, 4] [0, 0] 2).getD i 0 =
        ([1, 2] : List ℚ).getD i 0 + ([3, 4] : List ℚ).getD i 0) ∧
      (Vector_sum [1, 2] [3, 4] [0, 0] 2).length = 2 ∧
      ∀ (xs ys zs : List (List ℚ)) (local_n r : Nat),
        (mpiWorkerRun xs ys zs local_n r).local_z = zs.getD r [] :=
  C2_amended_vector_sum [1, 2] [3, 4] [0, 0] 2 (by decide) (by decide)
    (by decide)

/-- C3: for `W > 0` and `n % W = 0`, every worker's block has length
`local_n = n / W`, local index `i` of worker `r` maps to global index
`r * local_n + i`, and the concatenation of the `W` blocks in ascending
rank order is exactly `[0, n)`, each index once. -/
theorem C3_partition_covers_range :
    ∀ (n W : Nat), 0 < W → n % W = 0 →
      ((∀ r, (blockIndices r (localN n W)).length = localN n W) ∧
        (∀ r i, i < localN n W →
          (blockIndices r (localN n W)).getD i 0 = r * localN n W + i) ∧
        partitionIndices W (localN n W) = List.range n ∧
        (partitionIndices W (localN n W)).Nodup) := by
  intro n W _ hmod
  have hWm : W * localN n W = n :=
    Nat.mul_div_cancel' (Nat.dvd_of_mod_eq_zero hmod)
  refine ⟨fun r => by simp [blockIndices], fun r i hi => ?_, ?_, ?_⟩
  · rw [List.getD_eq_getElem _ _ (by simpa [blockIndices] using hi)]
    simp [blockIndices]
  · rw [partitionIndices_eq_range, hWm]
  · rw [partitionIndices_eq_range, hWm]
    exact List.nodup_range n

/-- C3 witness: `n = 20`, `W = 4` (a configuration of the actual program:
`local_n = 20 / 4 = 5`). -/
theorem C3_partition_covers_range_witness :
    partitionIndices 4 (localN 20 4) = List.range 20 :=
  (C3_partition_covers_range 20 4 (by decide) (by decide)).2.2.1

/-- C4: for per-worker blocks all of length `local_n`, the gather inside
`Print_vector` assembles at rank 0 the concatenation in ascending rank
order — length `W * local_n`, and global index `r * local_n + i` holds
element `i` of worker `r`'s block — while every non-coordinator rank
obtains no assembled vector. -/
theorem C4_gather_concatenation :
    ∀ (blocks : List (List ℚ)) (local_n my_rank : Nat),
      (∀ b ∈ blocks, b.length = local_n) →
      (Print_vector blocks 0 = some blocks.flatten ∧
        blocks.flatten.length = blocks.length * local_n ∧
        (∀ r i, r < blocks.length → i < local_n →
          blocks.flatten.getD (r * local_n + i) 0 =
            (blocks.getD r []).getD i 0) ∧
        (my_rank ≠ 0 → Print_vector blocks my_rank = none)) := by
  intro blocks local_n my_rank h
  exact ⟨rfl, length_flatten_uniform blocks local_n h,
    fun r i hr hi => flatten_getD_blocks local_n blocks r i h hr hi,
    fun hrk => by simp [Print_vector, hrk]⟩

/-- C4 witness: two blocks of length 2; rank 1 receives nothing. -/
theorem C4_gather_concatenation_witness :
    Print_vector [[1, 2], [3, 4]] 0 = some [1, 2, 3, 4] ∧
      Print_vector [[1, 2], [3, 4]] 1 = none := by
  have h := C4_gather_concatenation [[1, 2], [3, 4]] 2 1 (by decide)
  exact ⟨h.1, h.2.2.2 (by decide)⟩

/-- C5: the reduction delivers at rank 0 the sum of all per-worker
contributions (and `Parallel_dot_product` returns exactly that sum of the
per-rank dot products at the coordinator); every non-coordinator rank
observes nothing from the reduction; and a permutation of the
contributions — any arrival order — leaves the coordinator's value
unchanged, since addition is associative and commutative. -/
theorem C5_reduce_sum_at_coordinator :
    ∀ (values altered : List ℚ) (my_rank : Nat),
      MPI_Reduce_sum values 0 = some values.sum ∧
      (my_rank ≠ 0 → MPI_Reduce_sum values my_rank = none) ∧
      (values.Perm altered →
        MPI_Reduce_sum altered 0 = MPI_Reduce_sum values 0) ∧
      (∀ (xs ys : List (List ℚ)) (local_n : Nat),
        Parallel_dot_product xs ys local_n 0 =
          (List.zipWith (fun x y => localDot x y local_n) xs ys).sum) := by
  intro values altered my_rank
  refine ⟨rfl, fun h => by simp [MPI_Reduce_sum, h], fun hperm => ?_,
    fun xs ys local_n => rfl⟩
  simp only [MPI_Reduce_sum, if_pos rfl]
  rw [← hperm.sum_eq]

/-- C5 witness: contributions `[1, 2]` at 2 workers, reversed order,
observer rank 1. -/
theorem C5_reduce_sum_at_coordinator_witness :
    MPI_Reduce_sum [2, 1] 0 = MPI_Reduce_sum [1, 2] 0 ∧
      MPI_Reduce_sum [1, 2] 1 = none := by
  have h := C5_reduce_sum_at_coordinator [1, 2] [2, 1] 1
  exact ⟨h.2.2.1 (List.Perm.swap 2 1 []), h.2.1 (by decide)⟩

/-- C6: with every worker's blocks of length `local_n`, the value the
coordinator obtains from the reduction of the locally computed dot
products is exactly the dot product of the reassembled global vectors, so
in particular the summation-order discrepancy is bounded by any tolerance:
`|parallel - global| ≤ 1e-9 * |global|`. -/
theorem C6_reduced_dot_matches_global :
    ∀ (xs ys : List (List ℚ)) (local_n : Nat),
      List.Forall₂ (fun x y => x.length = local_n ∧ y.length = local_n)
        xs ys →
      (Parallel_dot_product xs ys local_n 0 =
          dotList xs.flatten ys.flatten ∧
        |Parallel_dot_product xs ys local_n 0 -
            dotList xs.flatten ys.flatten| ≤
          (1 / 1000000000 : ℚ) * |dotList xs.flatten ys.flatten|) := by
  intro xs ys local_n h
  have key : Parallel_dot_product xs ys local_n 0 =
      dotList xs.flatten ys.flatten := rankDots_sum local_n xs ys h
  refine ⟨key, ?_⟩
  rw [key, sub_self, abs_zero]
  positivity

/-- C6 witness: the spec's end-to-end example `n = 4`, `W = 2`,
`x = [1,2,3,4]`, `y = [5,6,7,8]`: the coordinator's dot product is 70. -/
theorem C6_reduced_dot_matches_global_witness :
    Parallel_dot_product [[1, 2], [3, 4]] [[5, 6], [7, 8]] 2 0 = (70 : ℚ) :=
  ((C6_reduced_dot_matches_global [[1, 2], [3, 4]] [[5, 6], [7, 8]] 2
    (by simp)).1).trans (by norm_num [dotList])

/-- C7 counterexample: the claim reads the spec's one-block
`scalar_multiply(block, scalar)` — mutate `block` and nothing else — but
the code's routine has no one-block form: invoking it to scale the block
`[1]` (with scalar 2) also rewrites the other block `[3]` to `[6]`, a
side effect beyond the mutation of the given block. -/
theorem C7_counterexample_other_block_mutated :
    (Parallel_scalar_multiplication [1] [3] 2 1).2 ≠ [3] ∧
      (Parallel_scalar_multiplication [1] [3] 2 1).1 = [2] ∧
      (Parallel_scalar_multiplication [1] [3] 2 1).2 = [6] := by
  refine ⟨?_, ?_, ?_⟩ <;>
    norm_num [Parallel_scalar_multiplication, scalarMulLoop]

/-- C7 (amended): the code's scalar multiplication takes the two blocks
together; after `Parallel_scalar_multiplication(x, y, s, local_n)` with
`local_n` the common block length, every element of each passed block
equals `s` times its original value, lengths are preserved, and nothing
beyond the two passed blocks is touched (the routine receives nothing
else). -/
theorem C7_amended_scalar_multiply_elementwise :
    ∀ (x y : List ℚ) (s : ℚ) (local_n : Nat),
      local_n = x.length → local_n = y.length →
      ((∀ i, i < local_n →
          (Parallel_scalar_multiplication x y s local_n).1.getD i 0 =
              s * x.getD i 0 ∧
            (Parallel_scalar_multiplication x y s local_n).2.getD i 0 =
              s * y.getD i 0) ∧
        (Parallel_scalar_multiplication x y s local_n).1.length = local_n ∧
        (Parallel_scalar_multiplication x y s local_n).2.length =
          local_n) := by
  intro x y s local_n hx hy
  refine ⟨fun i hi => ⟨?_, ?_⟩, ?_, ?_⟩
  · rw [Parallel_scalar_multiplication, scalarMulLoop_fst_getD, if_pos hi,
      mul_comm]
  · rw [Parallel_scalar_multiplication, scalarMulLoop_snd_getD, if_pos hi,
      mul_comm]
  · rw [Parallel_scalar_multiplication, scalarMulLoop_fst_length, hx]
  · rw [Parallel_scalar_multiplication, scalarMulLoop_snd_length, hy]

/-- C7 witness: blocks `[1, 2]` and `[3, 4]`, scalar 5, evaluated at
index 0. -/
theorem C7_amended_scalar_multiply_elementwise_witness :
    (Parallel_scalar_multiplication [1, 2] [3, 4] 5 2).1.getD 0 0 =
        5 * ([1, 2] : List ℚ).getD 0 0 ∧
      (Parallel_scalar_multiplication [1, 2] [3, 4] 5 2).2.getD 0 0 =
        5 * ([3, 4] : List ℚ).getD 0 0 :=
  (C7_amended_scalar_multiply_elementwise [1, 2] [3, 4] 5 2 (by decide)
    (by decide)).1 0 (by decide)

/-- C8: the local dot-product loop computes
`sum over i < local_n of x[i] * y[i]`, and both the dot-product loop and
the scalar multiplication are pure functions of their arguments: equal
input blocks give equal (bit-identical in the model) outputs. -/
theorem C8_local_dot_pure :
    ∀ (x y w v : List ℚ) (s : ℚ) (local_n : Nat), x = w → y = v →
      (localDot x y local_n =
          ∑ i ∈ Finset.range local_n, x.getD i 0 * y.getD i 0 ∧
        localDot x y local_n = localDot w v local_n ∧
        Parallel_scalar_multiplication x y s local_n =
          Parallel_scalar_multiplication w v s local_n) := by
  intro x y w v s local_n hw hv
  subst hw; subst hv
  exact ⟨localDot_eq_sum_range x y local_n, rfl, rfl⟩

/-- C8 witness: identical invocations on `[1, 2]`, `[3, 4]`. -/
theorem C8_local_dot_pure_witness :
    localDot [1, 2] [3, 4] 2 =
        ∑ i ∈ Finset.range 2,
          ([1, 2] : List ℚ).getD i 0 * ([3, 4] : List ℚ).getD i 0 ∧
      localDot [1, 2] [3, 4] 2 = localDot [1, 2] [3, 4] 2 ∧
      Parallel_scalar_multiplication [1, 2] [3, 4] 6 2 =
        Parallel_scalar_multiplication [1, 2] [3, 4] 6 2 :=
  C8_local_dot_pure [1, 2] [3, 4] [1, 2] [3, 4] 6 2 rfl rfl

/-- C9: `Read_n` guards the order read from stdin: a non-positive value
is reported with the message `"Order should be positive"` and the nonzero
exit status `-1`; a positive value is returned unchanged. -/
theorem C9_read_n_guard :
    ∀ n : Int,
      (n ≤ 0 →
        Read_n n = Except.error ("Order should be positive", -1) ∧
          (-1 : Int) ≠ 0) ∧
      (0 < n → Read_n n = Except.ok n) := by
  intro n
  constructor
  · intro h
    exact ⟨by simp [Read_n, h], by decide⟩
  · intro h
    simp [Read_n, not_le.mpr h]

/-- C9 witness: the guard rejects `-7` and accepts `5`. -/
theorem C9_read_n_guard_witness :
    (Read_n (-7) = Except.error ("Order should be positive", -1) ∧
        (-1 : Int) ≠ 0) ∧
      Read_n 5 = Except.ok 5 :=
  ⟨(C9_read_n_guard (-7)).1 (by decide), (C9_read_n_guard 5).2 (by decide)⟩

/-- C10: one call to the scalar multiplication routine at its `main` call
site scales every element of both `local_x` and `local_y` by the scalar
and modifies nothing else of the worker's state — in particular `local_z`
and the stored dot product are untouched. -/
theorem C10_scalar_mul_both_blocks_frame :
    ∀ (st : MPIWorkerState) (s : ℚ) (local_n : Nat),
      local_n = st.local_x.length → local_n = st.local_y.length →
      scalarMulCall st s local_n =
        { local_x := st.local_x.map (fun a => a * s),
          local_y := st.local_y.map (fun a => a * s),
          local_z := st.local_z, dot := st.dot } := by
  intro st s local_n hx hy
  cases st with
  | mk lx ly lz d =>
      simp only [scalarMulCall, Parallel_scalar_multiplication] at *
      simp only [MPIWorkerState.mk.injEq]
      exact ⟨scalarMulLoop_fst_map lx ly s local_n hx,
        scalarMulLoop_snd_map lx ly s local_n hy, trivial, trivial⟩

/-- C10 witness: state `x = [1,2]`, `y = [3,4]`, `z = [5]`, dot 7,
scalar 3. -/
theorem C10_scalar_mul_both_blocks_frame_witness :
    scalarMulCall ⟨[1, 2], [3, 4], [5], 7⟩ 3 2 =
      ⟨[3, 6], [9, 12], [5], 7⟩ :=
  (C10_scalar_mul_both_blocks_frame ⟨[1, 2], [3, 4], [5], 7⟩ 3 2
    (by decide) (by decide)).trans (by norm_num)
